import Mathlib

/-!
Verification of the speculative-sampling decoding loop with KV-cache
management from notebooks/speculative-sampling/speculative-sampling.ipynb.

Shallow embedding conventions.

Tokens are natural numbers.  A compiled language model together with the
greedy (argmax) selection over its output logits is modelled as a total
function from a token context (the list of tokens the model has processed,
cache content followed by the freshly fed input ids) to the argmax token at
the last input position: `TokenModel := List Nat → Nat`.  A batched forward
pass over k input positions yields, at position i, the argmax for the
context extended with the first i+1 fed tokens; that is exactly how OpenVINO
returns one logits row per input position.  Attention masks and position
ids are recorded as data (see `InferCall`) but, as in the spec's opaque
model-service contract, the abstract model reads only the token context.

An infer request's KV cache logically holds the tokens it has processed, so
at the token level a request state is the list of processed tokens, and the
source's per-layer cache trimming corresponds to truncating that list
(`trim_tokens`).  The per-layer tensor operation itself, `update_state`, is
embedded separately and generically: a cache is a list of layer states, and
a layer state is represented by its list of axis-2 fibers (the only axis
the source reads: `state.state.shape[2]` and `state.state.data[:, :, :s]`),
so slicing `[:, :, :s]` is `List.take s` and `shape[2]` is `List.length`.

Python while-loops are embedded with an explicit fuel parameter; the
top-level wrappers pass fuel `N`, which is proved sufficient (every
successful iteration increases `seq_len` by at least one and the loop stops
once `seq_len ≥ N`).  The loops also return the number of infer calls they
issue, so that forward-pass counts are part of the embedding.

In `speculative_sampling_with_pkv`, the Python statement
`for disagree_idx, (t1, t2) in enumerate(zip(accum_draft_tokens, next_tokens)): if t1 != t2: break`
leaves `disagree_idx` equal to the first index where the two lists differ,
to the last index of the zip when no pair differs, and *unassigned* when
the zip is empty (K = 0), in which case the subsequent read raises a
NameError.  `disagreeIdx` returns `Option Nat` accordingly, and the
generation routine propagates the failure as `none`.
-/

/-- A model with greedy decoding: maps a token context to the argmax token. -/
def TokenModel : Type := List Nat → Nat

/-- Source `update_state(request, seq_len)`: for every layer state, if
`seq_len >= state.state.shape[2]` skip it, else replace the state by
`state.state.data[:, :, :seq_len]`.  A layer state is its list of axis-2
fibers, so the slice is `take` and `shape[2]` is `length`. -/
def update_state {α : Type} (states : List (List α)) (seq_len : Nat) : List (List α) :=
  states.map fun state => if seq_len ≥ state.length then state else state.take seq_len

/-- Token-level counterpart of `update_state` on a request's processed-token
list: trim the context to `seq_len` tokens unless it is already short. -/
def trim_tokens (ctx : List Nat) (seq_len : Nat) : List Nat :=
  if ctx.length ≤ seq_len then ctx else ctx.take seq_len

/-- The greedy chain: extend a context `n` times, each time appending the
model's argmax token for the current context.  This is the unique sequence
that naive greedy decoding produces. -/
def greedyChain (f : TokenModel) (c : List Nat) : Nat → List Nat
  | 0 => c
  | n + 1 => greedyChain f (c ++ [f c]) n

/-- Source `autoregressive_sampling_with_pkv` loop body.  `ctx` is the token
content of the infer request's KV cache, `next_token` the token about to be
fed, `all_tokens` the accumulated output.  Each iteration feeds one token,
reads the argmax of the last logits row, appends it, and increments
`seq_len`; the returned `Nat` counts the infer calls made by the loop. -/
def arLoop (f : TokenModel) (ctx : List Nat) (next_token : Nat) (all_tokens : List Nat)
    (seq_len N fuel : Nat) : List Nat × Nat :=
  match fuel with
  | 0 => (all_tokens, 0)
  | fuel + 1 =>
    if seq_len < N then
      let ctx2 := ctx ++ [next_token]
      let nt2 := f ctx2
      let r := arLoop f ctx2 nt2 (all_tokens ++ [nt2]) (seq_len + 1) N fuel
      (r.1, r.2 + 1)
    else (all_tokens, 0)

/-- Source `autoregressive_sampling_with_pkv(input, model, N)`: prime the
request on the whole prompt, take the argmax `next_token`, emit
`prompt ++ [next_token]`, then loop while `seq_len < N` feeding one token
at a time.  Fuel `N` bounds the loop (it runs `N - prompt.length` times). -/
def autoregressive_sampling_with_pkv (f : TokenModel) (prompt : List Nat) (N : Nat) :
    List Nat :=
  (arLoop f prompt (f prompt) (prompt ++ [f prompt]) prompt.length N N).1

/-- Total number of infer calls issued by `autoregressive_sampling_with_pkv`:
the priming call on the prompt plus one call per loop iteration. -/
def autoregressive_infer_calls (f : TokenModel) (prompt : List Nat) (N : Nat) : Nat :=
  (arLoop f prompt (f prompt) (prompt ++ [f prompt]) prompt.length N N).2 + 1

/-- The mutable state of the speculative loop: token content of the two
infer requests' KV caches, `first_token`, `all_tokens`,
`accum_draft_tokens`, and `seq_len`, exactly the variables the source
threads through its while-loop. -/
structure SpecState where
  draft_cache : List Nat
  main_cache : List Nat
  first_token : Nat
  all_tokens : List Nat
  accum_draft_tokens : List Nat
  seq_len : Nat
deriving Repr, DecidableEq

/-- One infer call's inputs: `input_ids`, the length of the attention mask,
and the position ids (the data the source passes to `request.infer`). -/
structure InferCall where
  input_ids : List Nat
  attn_len : Nat
  position_ids : List Nat
deriving Repr, DecidableEq

/-- Source draft loop `for i in range(K)`: feed `next_token` to the draft
request, read the argmax, append it to `accum_draft_tokens`, repeat.
Returns the draft request's grown context and the accumulator. -/
def draftSteps (fd : TokenModel) (ctx : List Nat) (next_token : Nat) (accum : List Nat) :
    Nat → List Nat × List Nat
  | 0 => (ctx, accum)
  | k + 1 =>
    let ctx2 := ctx ++ [next_token]
    let nt2 := fd ctx2
    draftSteps fd ctx2 nt2 (accum ++ [nt2]) k

/-- The draft request's context after the K draft steps of one iteration. -/
def specDraftCtx (fd : TokenModel) (st : SpecState) (K : Nat) : List Nat :=
  (draftSteps fd st.draft_cache st.first_token st.accum_draft_tokens K).1

/-- The K tokens proposed by the draft model in one iteration
(`accum_draft_tokens` after the draft loop). -/
def specDraftTokens (fd : TokenModel) (st : SpecState) (K : Nat) : List Nat :=
  (draftSteps fd st.draft_cache st.first_token st.accum_draft_tokens K).2

/-- The batched main-model infer call of one iteration, as the source builds
it: `input_ids = concatenate((first_token, accum_draft_tokens[:-1]))`,
`attention_mask = ones((1, seq_len + K))`,
`position_ids = arange(seq_len, seq_len + K)`. -/
def specMainCall (fd : TokenModel) (st : SpecState) (K : Nat) : InferCall :=
  { input_ids := st.first_token :: (specDraftTokens fd st K).dropLast
    attn_len := st.seq_len + K
    position_ids := List.range' st.seq_len K }

/-- Row-wise argmax of the batched forward pass:
`np.argmax(main_request.results["logits"], axis=-1)[0]`.  Position `i`
holds the model's argmax for the cache context extended by the first
`i + 1` fed input ids. -/
def mainVerify (fm : TokenModel) (cache : List Nat) (call : InferCall) : List Nat :=
  (List.range call.input_ids.length).map fun i => fm (cache ++ call.input_ids.take (i + 1))

/-- The verifier's K greedy predictions (`next_tokens`) of one iteration. -/
def specVerify (fd fm : TokenModel) (st : SpecState) (K : Nat) : List Nat :=
  mainVerify fm st.main_cache (specMainCall fd st K)

/-- Semantics of the source's
`for disagree_idx, (t1, t2) in enumerate(zip(...)): if t1 != t2: break`:
first index where the pair differs, else the last index of the list;
`none` when the list is empty, in which case `disagree_idx` is never
assigned and the subsequent read raises a NameError. -/
def disagreeIdx : List (Nat × Nat) → Option Nat
  | [] => none
  | p :: rest =>
    if p.1 ≠ p.2 then some 0
    else
      match disagreeIdx rest with
      | some i => some (i + 1)
      | none => some 0

/-- One iteration of the speculative while-loop (DRAFT, VERIFY, accept,
TRIM, reset the accumulator).  `none` models the NameError reached when the
zip is empty (K = 0). -/
def specIter (fd fm : TokenModel) (st : SpecState) (K : Nat) : Option SpecState :=
  let drafts := specDraftTokens fd st K
  let verify := specVerify fd fm st K
  match disagreeIdx (drafts.zip verify) with
  | none => none
  | some di =>
    some
      { draft_cache := trim_tokens (specDraftCtx fd st K) (st.seq_len + di + 1)
        main_cache :=
          trim_tokens (st.main_cache ++ (specMainCall fd st K).input_ids) (st.seq_len + di + 1)
        first_token := verify.getD di 0
        all_tokens := st.all_tokens ++ verify.take (di + 1)
        accum_draft_tokens := []
        seq_len := st.seq_len + di + 1 }

/-- The speculative while-loop.  The returned `Nat` counts the main-model
infer calls issued inside the loop; on exit the source appends the (empty)
accumulator to `all_tokens`. -/
def specLoop (fd fm : TokenModel) (fuel : Nat) (st : SpecState) (K N : Nat) :
    Option (List Nat × Nat) :=
  match fuel with
  | 0 =>
    if st.seq_len < N then none
    else some (st.all_tokens ++ st.accum_draft_tokens, 0)
  | fuel + 1 =>
    if st.seq_len < N then
      match specIter fd fm st K with
      | none => none
      | some st' =>
        match specLoop fd fm fuel st' K N with
        | none => none
        | some (out, c) => some (out, c + 1)
    else some (st.all_tokens ++ st.accum_draft_tokens, 0)

/-- The state after the priming calls of `speculative_sampling_with_pkv`:
both requests have processed the prompt, `first_token` is the main model's
argmax on the prompt, and `all_tokens = prompt ++ [first_token]`. -/
def initState (fm : TokenModel) (prompt : List Nat) : SpecState :=
  { draft_cache := prompt
    main_cache := prompt
    first_token := fm prompt
    all_tokens := prompt ++ [fm prompt]
    accum_draft_tokens := []
    seq_len := prompt.length }

/-- Source `speculative_sampling_with_pkv(input, draft_model, main_model, K, N)`:
prime both requests on the prompt, then run the speculative while-loop.
`none` models the run aborting with an error (only reachable for K = 0). -/
def speculative_sampling_with_pkv (fd fm : TokenModel) (prompt : List Nat) (K N : Nat) :
    Option (List Nat) :=
  (specLoop fd fm N (initState fm prompt) K N).map fun r => r.1

/-- Number of calls to the main model's batched forward pass made by
`speculative_sampling_with_pkv`: the priming call plus one per iteration. -/
def speculative_main_infer_calls (fd fm : TokenModel) (prompt : List Nat) (K N : Nat) :
    Option Nat :=
  (specLoop fd fm N (initState fm prompt) K N).map fun r => r.2 + 1

/-- Sanity evaluation: the autoregressive routine on a constant model. -/
theorem sanity_autoregressive_eval :
    autoregressive_sampling_with_pkv (fun _ => 0) [7] 3 = [7, 0, 0, 0] := by decide

/-- Sanity evaluation: a speculative run whose last iteration lands on N. -/
theorem sanity_speculative_eval_exact :
    speculative_sampling_with_pkv (fun _ => 0) (fun _ => 0) [7] 2 3 = some [7, 0, 0, 0] := by
  decide

/-- Sanity evaluation: a speculative run that overshoots N by K - 1. -/
theorem sanity_speculative_eval_overshoot :
    speculative_sampling_with_pkv (fun _ => 0) (fun _ => 0) [7] 2 2 = some [7, 0, 0, 0] := by
  decide

/-- Sanity evaluation: `update_state` truncates every layer. -/
theorem sanity_update_state_eval :
    update_state [[1, 2, 3], [4, 5, 6]] 2 = [[1, 2], [4, 5]] := by decide

/-- The invariant of the speculative loop at iteration boundaries: the
accumulator is empty, both requests have processed exactly the confirmed
tokens except the last one, `first_token` is the last confirmed token,
`all_tokens` has `seq_len + 1` entries, and `all_tokens` is a greedy chain
of the main model extending the prompt. -/
def SpecInv (fm : TokenModel) (prompt : List Nat) (st : SpecState) : Prop :=
  st.accum_draft_tokens = [] ∧
  st.draft_cache = st.main_cache ∧
  st.all_tokens = st.main_cache ++ [st.first_token] ∧
  st.all_tokens.length = st.seq_len + 1 ∧
  ∃ n, st.all_tokens = greedyChain fm prompt n

/-! ### Basic lemmas about the greedy chain -/

theorem greedyChain_succ (f : TokenModel) (c : List Nat) (n : Nat) :
    greedyChain f c (n + 1) = greedyChain f (c ++ [f c]) n := rfl

theorem greedyChain_length (f : TokenModel) (c : List Nat) (n : Nat) :
    (greedyChain f c n).length = c.length + n := by
  induction n generalizing c with
  | zero => simp [greedyChain]
  | succ n ih => simp [greedyChain, ih]; omega

theorem greedyChain_snoc (f : TokenModel) (c : List Nat) (n : Nat) :
    greedyChain f c (n + 1) = greedyChain f c n ++ [f (greedyChain f c n)] := by
  induction n generalizing c with
  | zero => simp [greedyChain]
  | succ n ih =>
    show greedyChain f (c ++ [f c]) (n + 1) = _
    rw [ih]
    rfl

theorem greedyChain_add (f : TokenModel) (c : List Nat) (m n : Nat) :
    greedyChain f c (m + n) = greedyChain f (greedyChain f c m) n := by
  induction n with
  | zero => rfl
  | succ n ih =>
    rw [show m + (n + 1) = (m + n) + 1 by omega, greedyChain_snoc, ih, greedyChain_snoc]

theorem greedyChain_exists_append (f : TokenModel) (c : List Nat) (n : Nat) :
    ∃ t, greedyChain f c n = c ++ t ∧ t.length = n := by
  induction n generalizing c with
  | zero => exact ⟨[], by simp [greedyChain]⟩
  | succ n ih =>
    obtain ⟨t, ht, hlen⟩ := ih (c ++ [f c])
    exact ⟨f c :: t, by simpa [greedyChain] using ht, by simp [hlen]⟩

/-- A list whose every element is the model's argmax at the preceding
context is a greedy chain. -/
theorem greedyChain_of_pointwise (f : TokenModel) (c : List Nat) (v : List Nat) (m : Nat)
    (hm : m ≤ v.length) (hp : ∀ i, i < m → v.getD i 0 = f (c ++ v.take i)) :
    c ++ v.take m = greedyChain f c m := by
  induction m with
  | zero => simp [greedyChain]
  | succ m ih =>
    have hmv : m < v.length := by omega
    have htake : v.take (m + 1) = v.take m ++ [v.getD m 0] := by
      rw [List.take_succ, List.getElem?_eq_getElem hmv, List.getD_eq_getElem v 0 hmv]
      rfl
    rw [htake, greedyChain_snoc, ← List.append_assoc,
      ih (by omega) (fun i hi => hp i (by omega)), hp m (by omega),
      ih (by omega) (fun i hi => hp i (by omega))]

/-! ### Lemmas about the disagreement-index scan -/

theorem disagreeIdx_cons_eq (p : Nat × Nat) (rest : List (Nat × Nat)) (h : p.1 = p.2) :
    disagreeIdx (p :: rest) =
      match disagreeIdx rest with
      | some i => some (i + 1)
      | none => some 0 := by
  simp only [disagreeIdx]
  rw [if_neg (by simp [h])]

theorem disagreeIdx_spec (pairs : List (Nat × Nat)) (h : pairs ≠ []) :
    ∃ i, disagreeIdx pairs = some i ∧ i < pairs.length ∧
      (∀ j, j < i → (pairs.getD j (0, 0)).1 = (pairs.getD j (0, 0)).2) ∧
      ((pairs.getD i (0, 0)).1 ≠ (pairs.getD i (0, 0)).2 ∨ i = pairs.length - 1) := by
  induction pairs with
  | nil => exact absurd rfl h
  | cons p rest ih =>
    by_cases hp : p.1 ≠ p.2
    · refine ⟨0, ?_, by simp, fun j hj => absurd hj (by omega), Or.inl (by simpa using hp)⟩
      simp [disagreeIdx, hp]
    · have hp' : p.1 = p.2 := by omega
      cases rest with
      | nil =>
        refine ⟨0, ?_, by simp, fun j hj => absurd hj (by omega), Or.inr (by simp)⟩
        simp [disagreeIdx, hp']
      | cons q rest' =>
        obtain ⟨i', hEq, hlt, hagree, hdis⟩ := ih (by simp)
        refine ⟨i' + 1, ?_, by simpa using (by omega : i' + 1 < (q :: rest').length + 1), ?_, ?_⟩
        · rw [disagreeIdx_cons_eq p _ hp', hEq]
        · intro j hj
          cases j with
          | zero => simpa using hp'
          | succ j' => simpa using hagree j' (by omega)
        · rcases hdis with hl | hr
          · exact Or.inl (by simpa using hl)
          · refine Or.inr ?_
            have : (q :: rest').length ≥ 1 := by simp
            simp only [List.length_cons] at hr ⊢
            omega

theorem zip_getD (d v : List Nat) (j : Nat) (h : j < (d.zip v).length) :
    (d.zip v).getD j (0, 0) = (d.getD j 0, v.getD j 0) := by
  have hlen : (d.zip v).length = min d.length v.length := List.length_zip d v
  have hd : j < d.length := by rw [hlen] at h; omega
  have hv : j < v.length := by rw [hlen] at h; omega
  rw [List.getD_eq_getElem _ _ h, List.getD_eq_getElem _ _ hd, List.getD_eq_getElem _ _ hv]
  exact List.getElem_zip

/-! ### Structure of the draft loop -/

theorem draftSteps_eq (fd : TokenModel) (k : Nat) :
    ∀ (c : List Nat) (nt : Nat) (a : List Nat),
      ∃ l, draftSteps fd c nt a k = (c ++ (nt :: l).dropLast, a ++ l) ∧ l.length = k := by
  induction k with
  | zero => intro c nt a; exact ⟨[], by simp [draftSteps], rfl⟩
  | succ k ih =>
    intro c nt a
    obtain ⟨l', hl', hlen'⟩ := ih (c ++ [nt]) (fd (c ++ [nt])) (a ++ [fd (c ++ [nt])])
    refine ⟨fd (c ++ [nt]) :: l', ?_, by simp [hlen']⟩
    show draftSteps fd (c ++ [nt]) (fd (c ++ [nt])) (a ++ [fd (c ++ [nt])]) k = _
    rw [hl']
    simp [List.dropLast_cons₂]

theorem specDraftTokens_length (fd : TokenModel) (st : SpecState) (K : Nat) :
    (specDraftTokens fd st K).length = st.accum_draft_tokens.length + K := by
  obtain ⟨l, hl, hlen⟩ := draftSteps_eq fd K st.draft_cache st.first_token st.accum_draft_tokens
  simp [specDraftTokens, hl, hlen]

/-! ### Pointwise description of the verifier's batched outputs -/

theorem mainVerify_length (fm : TokenModel) (cache : List Nat) (call : InferCall) :
    (mainVerify fm cache call).length = call.input_ids.length := by
  simp [mainVerify]

theorem mainVerify_getD (fm : TokenModel) (cache : List Nat) (call : InferCall) (i : Nat)
    (h : i < call.input_ids.length) :
    (mainVerify fm cache call).getD i 0 = fm (cache ++ call.input_ids.take (i + 1)) := by
  have h' : i < (mainVerify fm cache call).length := by rwa [mainVerify_length]
  rw [List.getD_eq_getElem _ _ h']
  simp [mainVerify]

/-! ### Anatomy of one speculative iteration -/

theorem trim_tokens_eq_take (ctx : List Nat) (s : Nat) : trim_tokens ctx s = ctx.take s := by
  unfold trim_tokens
  split
  · exact (List.take_of_length_le (by assumption)).symm
  · rfl

theorem specDraftTokens_length_of_nil (fd : TokenModel) (st : SpecState) (K : Nat)
    (hacc : st.accum_draft_tokens = []) : (specDraftTokens fd st K).length = K := by
  rw [specDraftTokens_length, hacc]
  simp

theorem specMainCall_input_length (fd : TokenModel) (st : SpecState) (K : Nat) (hK : 1 ≤ K)
    (hacc : st.accum_draft_tokens = []) : (specMainCall fd st K).input_ids.length = K := by
  have hd := specDraftTokens_length_of_nil fd st K hacc
  simp only [specMainCall, List.length_cons, List.length_dropLast, hd]
  omega

theorem specVerify_length (fd fm : TokenModel) (st : SpecState) (K : Nat) (hK : 1 ≤ K)
    (hacc : st.accum_draft_tokens = []) : (specVerify fd fm st K).length = K := by
  rw [specVerify, mainVerify_length, specMainCall_input_length fd st K hK hacc]

/-- With `K ≥ 1` and an empty accumulator (the situation at every iteration
entry), one iteration succeeds, `disagree_idx` is the first index where the
draft token differs from the verifier's prediction (the last index, `K - 1`,
when no pair differs), and the iteration appends exactly
`next_tokens[: disagree_idx + 1]`. -/
theorem specIter_anatomy (fd fm : TokenModel) (st : SpecState) (K : Nat) (hK : 1 ≤ K)
    (hacc : st.accum_draft_tokens = []) :
    ∃ di,
      disagreeIdx ((specDraftTokens fd st K).zip (specVerify fd fm st K)) = some di ∧
      di < K ∧
      (∀ j, j < di → (specDraftTokens fd st K).getD j 0 = (specVerify fd fm st K).getD j 0) ∧
      ((specDraftTokens fd st K).getD di 0 ≠ (specVerify fd fm st K).getD di 0 ∨ di = K - 1) ∧
      specIter fd fm st K =
        some
          { draft_cache := trim_tokens (specDraftCtx fd st K) (st.seq_len + di + 1)
            main_cache :=
              trim_tokens (st.main_cache ++ (specMainCall fd st K).input_ids)
                (st.seq_len + di + 1)
            first_token := (specVerify fd fm st K).getD di 0
            all_tokens := st.all_tokens ++ (specVerify fd fm st K).take (di + 1)
            accum_draft_tokens := []
            seq_len := st.seq_len + di + 1 } := by
  have hd := specDraftTokens_length_of_nil fd st K hacc
  have hv := specVerify_length fd fm st K hK hacc
  have hplen : ((specDraftTokens fd st K).zip (specVerify fd fm st K)).length = K := by
    rw [List.length_zip, hd, hv]
    simp
  have hne : (specDraftTokens fd st K).zip (specVerify fd fm st K) ≠ [] := by
    intro hcon
    rw [hcon] at hplen
    simp at hplen
    omega
  obtain ⟨di, hEq, hlt, hagree, hdis⟩ := disagreeIdx_spec _ hne
  rw [hplen] at hlt
  refine ⟨di, hEq, hlt, ?_, ?_, ?_⟩
  · intro j hj
    have hjp : j < ((specDraftTokens fd st K).zip (specVerify fd fm st K)).length := by
      rw [hplen]; omega
    have := hagree j hj
    rwa [zip_getD _ _ j hjp] at this
  · have hdip : di < ((specDraftTokens fd st K).zip (specVerify fd fm st K)).length := by
      rw [hplen]; omega
    rcases hdis with hl | hr
    · rw [zip_getD _ _ di hdip] at hl
      exact Or.inl hl
    · rw [hplen] at hr
      exact Or.inr hr
  · simp only [specIter]
    rw [hEq]

/-! ### Invariant preservation across one iteration -/

theorem specIter_step (fd fm : TokenModel) (prompt : List Nat) (st : SpecState) (K : Nat)
    (hK : 1 ≤ K) (hInv : SpecInv fm prompt st) :
    ∃ st', specIter fd fm st K = some st' ∧ SpecInv fm prompt st' ∧
      st.seq_len + 1 ≤ st'.seq_len ∧ st'.seq_len ≤ st.seq_len + K := by
  obtain ⟨hacc, hdm, hall, hlen, n, hchain⟩ := hInv
  obtain ⟨di, hEq, hdiK, hagree, hdis, hiter⟩ := specIter_anatomy fd fm st K hK hacc
  have hd : (specDraftTokens fd st K).length = K := specDraftTokens_length_of_nil fd st K hacc
  have hv : (specVerify fd fm st K).length = K := specVerify_length fd fm st K hK hacc
  have hmc : st.main_cache.length = st.seq_len := by
    have h1 : st.all_tokens.length = st.main_cache.length + 1 := by rw [hall]; simp
    omega
  have hinput : (specMainCall fd st K).input_ids =
      st.first_token :: (specDraftTokens fd st K).dropLast := rfl
  have hinlen : (specMainCall fd st K).input_ids.length = K :=
    specMainCall_input_length fd st K hK hacc
  have hdl_take : ∀ i, i < K →
      (specDraftTokens fd st K).dropLast.take i = (specDraftTokens fd st K).take i := by
    intro i hi
    rw [List.dropLast_eq_take, List.take_take, hd]
    congr 1
    omega
  have hin_take : ∀ i, i < K → (specMainCall fd st K).input_ids.take (i + 1) =
      st.first_token :: (specDraftTokens fd st K).take i := by
    intro i hi
    rw [hinput, List.take_succ_cons, hdl_take i hi]
  have hvd : ∀ i, i < K → (specVerify fd fm st K).getD i 0 =
      fm (st.all_tokens ++ (specDraftTokens fd st K).take i) := by
    intro i hi
    rw [specVerify, mainVerify_getD fm st.main_cache _ i (by rw [hinlen]; omega),
      hin_take i hi, hall]
    simp
  have htake_eq : ∀ i, i ≤ di →
      (specDraftTokens fd st K).take i = (specVerify fd fm st K).take i := by
    intro i hi
    apply List.ext_getElem
    · rw [List.length_take, List.length_take, hd, hv]
    · intro j h1 h2
      have hj : j < i := by
        rw [List.length_take, hd] at h1
        omega
      have hjd : j < (specDraftTokens fd st K).length := by rw [hd]; omega
      have hjv : j < (specVerify fd fm st K).length := by rw [hv]; omega
      have hj2 := hagree j (by omega)
      rw [List.getD_eq_getElem _ _ hjd, List.getD_eq_getElem _ _ hjv] at hj2
      simpa [List.getElem_take] using hj2
  have hvv : ∀ i, i < di + 1 →
      (specVerify fd fm st K).getD i 0 = fm (st.all_tokens ++ (specVerify fd fm st K).take i) := by
    intro i hi
    rw [← htake_eq i (by omega)]
    exact hvd i (by omega)
  have hgc : st.all_tokens ++ (specVerify fd fm st K).take (di + 1) =
      greedyChain fm st.all_tokens (di + 1) :=
    greedyChain_of_pointwise fm st.all_tokens (specVerify fd fm st K) (di + 1)
      (by rw [hv]; omega) hvv
  have hmc2 : st.main_cache ++ (specMainCall fd st K).input_ids =
      st.all_tokens ++ (specDraftTokens fd st K).dropLast := by
    rw [hinput, hall]
    simp
  have htrim_main :
      trim_tokens (st.main_cache ++ (specMainCall fd st K).input_ids) (st.seq_len + di + 1) =
        st.all_tokens ++ (specVerify fd fm st K).take di := by
    rw [trim_tokens_eq_take, hmc2]
    have h2 : st.seq_len + di + 1 = st.all_tokens.length + di := by rw [hlen]; omega
    rw [h2, List.take_append, hdl_take di hdiK, htake_eq di (Nat.le_refl di)]
  have hdctx : specDraftCtx fd st K = st.main_cache ++ (specMainCall fd st K).input_ids := by
    obtain ⟨l, hl, hlenl⟩ :=
      draftSteps_eq fd K st.draft_cache st.first_token st.accum_draft_tokens
    have hld : l = specDraftTokens fd st K := by
      rw [specDraftTokens, hl, hacc]
      simp
    rw [specDraftCtx, hl, hinput, hld, hdm]
    cases hdcase : specDraftTokens fd st K with
    | nil =>
      rw [hdcase] at hd
      simp at hd
      omega
    | cons a l' => rw [List.dropLast_cons₂]
  have htrim_draft :
      trim_tokens (specDraftCtx fd st K) (st.seq_len + di + 1) =
        st.all_tokens ++ (specVerify fd fm st K).take di := by
    rw [hdctx, htrim_main]
  have hvdi : di < (specVerify fd fm st K).length := by rw [hv]; omega
  have hall' : st.all_tokens ++ (specVerify fd fm st K).take (di + 1) =
      (st.all_tokens ++ (specVerify fd fm st K).take di) ++ [(specVerify fd fm st K).getD di 0] := by
    rw [List.take_succ, List.getElem?_eq_getElem hvdi, List.getD_eq_getElem _ _ hvdi]
    simp
  refine ⟨_, hiter, ⟨rfl, ?_, ?_, ?_, ?_⟩, ?_, ?_⟩
  · show trim_tokens (specDraftCtx fd st K) (st.seq_len + di + 1) = trim_tokens _ _
    rw [htrim_draft, htrim_main]
  · show st.all_tokens ++ (specVerify fd fm st K).take (di + 1) =
      trim_tokens (st.main_cache ++ (specMainCall fd st K).input_ids) (st.seq_len + di + 1)
        ++ [(specVerify fd fm st K).getD di 0]
    rw [htrim_main, hall']
  · show (st.all_tokens ++ (specVerify fd fm st K).take (di + 1)).length = st.seq_len + di + 1 + 1
    rw [List.length_append, hlen, List.length_take, hv]
    omega
  · refine ⟨n + (di + 1), ?_⟩
    show st.all_tokens ++ (specVerify fd fm st K).take (di + 1) = _
    rw [hgc, hchain, ← greedyChain_add]
  · show st.seq_len + 1 ≤ st.seq_len + di + 1
    omega
  · show st.seq_len + di + 1 ≤ st.seq_len + K
    omega

/-! ### The autoregressive loop computes the greedy chain -/

theorem arLoop_eq (f : TokenModel) (N : Nat) :
    ∀ (fuel : Nat) (ctx : List Nat) (s : Nat), N ≤ s + fuel →
      arLoop f ctx (f ctx) (ctx ++ [f ctx]) s N fuel =
        (greedyChain f ctx (N - s + 1), N - s) := by
  intro fuel
  induction fuel with
  | zero =>
    intro ctx s hfuel
    have hNs : N - s = 0 := by omega
    rw [hNs]
    simp [arLoop, greedyChain]
  | succ fuel ih =>
    intro ctx s hfuel
    by_cases hs : s < N
    · have hrec := ih (ctx ++ [f ctx]) (s + 1) (by omega)
      simp only [arLoop, if_pos hs]
      rw [hrec]
      refine Prod.ext ?_ ?_
      · show greedyChain f (ctx ++ [f ctx]) (N - (s + 1) + 1) = greedyChain f ctx (N - s + 1)
        rw [← greedyChain_succ]
        congr 1
        omega
      · show N - (s + 1) + 1 = N - s
        omega
    · have hNs : N - s = 0 := by omega
      rw [hNs]
      simp [arLoop, hs, greedyChain]

theorem autoregressive_eq_greedyChain (f : TokenModel) (prompt : List Nat) (N : Nat) :
    autoregressive_sampling_with_pkv f prompt N =
      greedyChain f prompt (N - prompt.length + 1) := by
  rw [autoregressive_sampling_with_pkv, arLoop_eq f N N prompt prompt.length (by omega)]

theorem autoregressive_calls_eq (f : TokenModel) (prompt : List Nat) (N : Nat) :
    autoregressive_infer_calls f prompt N = (N - prompt.length) + 1 := by
  rw [autoregressive_infer_calls, arLoop_eq f N N prompt prompt.length (by omega)]

theorem autoregressive_length (f : TokenModel) (prompt : List Nat) (N : Nat)
    (h : prompt.length ≤ N) :
    (autoregressive_sampling_with_pkv f prompt N).length = N + 1 := by
  rw [autoregressive_eq_greedyChain, greedyChain_length]
  omega

/-! ### Soundness of the speculative loop -/

theorem initState_inv (fm : TokenModel) (prompt : List Nat) :
    SpecInv fm prompt (initState fm prompt) := by
  refine ⟨rfl, rfl, rfl, by simp [initState], 1, ?_⟩
  simp [initState, greedyChain]

theorem specLoop_sound (fd fm : TokenModel) (prompt : List Nat) (K N : Nat) (hK : 1 ≤ K) :
    ∀ (fuel : Nat) (st : SpecState), SpecInv fm prompt st → N ≤ st.seq_len + fuel →
      ∃ out c, specLoop fd fm fuel st K N = some (out, c) ∧
        (∃ m, out = greedyChain fm prompt m ∧ out.length = prompt.length + m) ∧
        c ≤ N - st.seq_len ∧
        st.all_tokens.length ≤ out.length ∧
        (st.seq_len < N → N + 1 ≤ out.length ∧ out.length ≤ N + K) ∧
        (N ≤ st.seq_len → out = st.all_tokens) := by
  intro fuel
  induction fuel with
  | zero =>
    intro st hInv hfuel
    obtain ⟨hacc, _, _, hlen, n, hchain⟩ := hInv
    have hsn : ¬ st.seq_len < N := by omega
    refine ⟨st.all_tokens, 0, ?_, ⟨n, hchain, ?_⟩, by omega, Nat.le_refl _, ?_, fun _ => rfl⟩
    · simp [specLoop, hsn, hacc]
    · rw [hchain]
      exact greedyChain_length fm prompt n
    · intro hcon
      omega
  | succ fuel ih =>
    intro st hInv hfuel
    by_cases hs : st.seq_len < N
    · obtain ⟨st', hiter, hInv', hge, hle⟩ := specIter_step fd fm prompt st K hK hInv
      obtain ⟨out, c, hloop, hchain', hc, hmono, hbounds, hexit⟩ := ih st' hInv' (by omega)
      refine ⟨out, c + 1, ?_, hchain', by omega, ?_, ?_, ?_⟩
      · simp [specLoop, hs, hiter, hloop]
      · have h1 := hInv.2.2.2.1
        have h2 := hInv'.2.2.2.1
        omega
      · intro _
        by_cases hs' : st'.seq_len < N
        · exact hbounds hs'
        · have hout := hexit (by omega)
          have h2 := hInv'.2.2.2.1
          rw [hout]
          omega
      · intro hcon
        omega
    · obtain ⟨hacc, _, _, hlen, n, hchain⟩ := hInv
      refine ⟨st.all_tokens, 0, ?_, ⟨n, hchain, ?_⟩, by omega, Nat.le_refl _, ?_, fun _ => rfl⟩
      · simp [specLoop, hs, hacc]
      · rw [hchain]
        exact greedyChain_length fm prompt n
      · intro hcon
        exact absurd hcon hs

/-! ### Termination facts that do not need the invariant -/

theorem specIter_isSome (fd fm : TokenModel) (st : SpecState) (K : Nat) (hK : 1 ≤ K) :
    ∃ st', specIter fd fm st K = some st' ∧ st.seq_len + 1 ≤ st'.seq_len := by
  have hd := specDraftTokens_length fd st K
  have hv : (specVerify fd fm st K).length = st.accum_draft_tokens.length + K := by
    rw [specVerify, mainVerify_length]
    simp only [specMainCall, List.length_cons, List.length_dropLast, hd]
    omega
  have hne : (specDraftTokens fd st K).zip (specVerify fd fm st K) ≠ [] := by
    intro hcon
    have := congrArg List.length hcon
    rw [List.length_zip, hd, hv] at this
    simp at this
    omega
  obtain ⟨di, hEq, _, _, _⟩ := disagreeIdx_spec _ hne
  refine ⟨{ draft_cache := trim_tokens (specDraftCtx fd st K) (st.seq_len + di + 1)
            main_cache :=
              trim_tokens (st.main_cache ++ (specMainCall fd st K).input_ids)
                (st.seq_len + di + 1)
            first_token := (specVerify fd fm st K).getD di 0
            all_tokens := st.all_tokens ++ (specVerify fd fm st K).take (di + 1)
            accum_draft_tokens := []
            seq_len := st.seq_len + di + 1 }, ?_, ?_⟩
  · simp only [specIter]
    rw [hEq]
  · show st.seq_len + 1 ≤ st.seq_len + di + 1
    omega

theorem specLoop_isSome (fd fm : TokenModel) (K N : Nat) (hK : 1 ≤ K) :
    ∀ (fuel : Nat) (st : SpecState), N ≤ st.seq_len + fuel →
      ∃ r, specLoop fd fm fuel st K N = some r := by
  intro fuel
  induction fuel with
  | zero =>
    intro st hfuel
    refine ⟨(st.all_tokens ++ st.accum_draft_tokens, 0), ?_⟩
    simp [specLoop, show ¬ st.seq_len < N by omega]
  | succ fuel ih =>
    intro st hfuel
    by_cases hs : st.seq_len < N
    · obtain ⟨st', hiter, hge⟩ := specIter_isSome fd fm st K hK
      obtain ⟨⟨out, c⟩, hr⟩ := ih st' (by omega)
      refine ⟨(out, c + 1), ?_⟩
      simp [specLoop, hs, hiter, hr]
    · refine ⟨(st.all_tokens ++ st.accum_draft_tokens, 0), ?_⟩
      simp [specLoop, hs]

/-! ### Exit and K = 0 behaviour -/

theorem specLoop_of_exit (fd fm : TokenModel) (K N fuel : Nat) (st : SpecState)
    (hs : ¬ st.seq_len < N) :
    specLoop fd fm fuel st K N = some (st.all_tokens ++ st.accum_draft_tokens, 0) := by
  cases fuel <;> simp [specLoop, hs]

theorem specIter_k0 (fd fm : TokenModel) (st : SpecState)
    (hacc : st.accum_draft_tokens = []) : specIter fd fm st 0 = none := by
  have hd : specDraftTokens fd st 0 = [] := by
    have h := specDraftTokens_length_of_nil fd st 0 hacc
    exact List.length_eq_zero.mp (by omega)
  simp [specIter, hd, disagreeIdx]

/-! ### Claim theorems -/

/-- C1, counterexample: with draft = main = the constant-0 model, prompt
[0], K = 2, N = 2, the speculative routine returns [0,0,0,0] while the
autoregressive routine returns [0,0,0]; the sequences are not identical,
because the final iteration overshoots the budget N. -/
theorem speculative_output_differs_from_autoregressive_at_K2 :
    speculative_sampling_with_pkv (fun _ => 0) (fun _ => 0) [0] 2 2 ≠
      some (autoregressive_sampling_with_pkv (fun _ => 0) [0] 2) := by
  decide

/-- C1, amended: for every prompt with prompt_len < N and every K ≥ 1 the
speculative routine succeeds and its output extends the autoregressive
output: the autoregressive sequence is an initial segment of the
speculative sequence, and the extension holds at most K - 1 extra tokens
(so for K = 1, or whenever the final iteration lands exactly on N, the two
sequences are identical). -/
theorem speculative_extends_autoregressive (fd fm : TokenModel) (prompt : List Nat)
    (K N : Nat) (hK : 1 ≤ K) (hpN : prompt.length < N) :
    ∃ out rest, speculative_sampling_with_pkv fd fm prompt K N = some out ∧
      out = autoregressive_sampling_with_pkv fm prompt N ++ rest ∧
      rest.length ≤ K - 1 := by
  obtain ⟨out, c, hloop, ⟨m, hchain, hlen⟩, _, _, hbounds, _⟩ :=
    specLoop_sound fd fm prompt K N hK N (initState fm prompt) (initState_inv fm prompt)
      (by show N ≤ prompt.length + N; omega)
  have hb := hbounds (show prompt.length < N from hpN)
  have hsplit : m = (N - prompt.length + 1) + (out.length - (N + 1)) := by omega
  obtain ⟨t, ht, htlen⟩ :=
    greedyChain_exists_append fm (greedyChain fm prompt (N - prompt.length + 1))
      (out.length - (N + 1))
  refine ⟨out, t, ?_, ?_, by omega⟩
  · simp [speculative_sampling_with_pkv, hloop]
  · rw [hchain, hsplit, greedyChain_add, ht, autoregressive_eq_greedyChain]

/-- C2: in every iteration entered with an empty accumulator and K ≥ 1, the
iteration succeeds; `disagree_idx` is the smallest index where the draft
token differs from the verifier's prediction at that position (with the
minimality expressed by agreement strictly below it), or K - 1 when all K
pairs agree; and the tokens appended to `all_tokens` in that iteration are
exactly the verifier's predictions `next_tokens[: disagree_idx + 1]`. -/
theorem speculative_disagree_idx_and_accepted_tokens (fd fm : TokenModel) (st : SpecState)
    (K : Nat) (hK : 1 ≤ K) (hacc : st.accum_draft_tokens = []) :
    ∃ di st',
      disagreeIdx ((specDraftTokens fd st K).zip (specVerify fd fm st K)) = some di ∧
      specIter fd fm st K = some st' ∧
      st'.all_tokens = st.all_tokens ++ (specVerify fd fm st K).take (di + 1) ∧
      st'.seq_len = st.seq_len + (di + 1) ∧
      ((di < K ∧ (specDraftTokens fd st K).getD di 0 ≠ (specVerify fd fm st K).getD di 0 ∧
          (∀ j, j < di →
            (specDraftTokens fd st K).getD j 0 = (specVerify fd fm st K).getD j 0)) ∨
        (di = K - 1 ∧
          ∀ j, j < K →
            (specDraftTokens fd st K).getD j 0 = (specVerify fd fm st K).getD j 0)) := by
  obtain ⟨di, hEq, hdiK, hagree, hdis, hiter⟩ := specIter_anatomy fd fm st K hK hacc
  refine ⟨di, _, hEq, hiter, rfl, rfl, ?_⟩
  by_cases hne : (specDraftTokens fd st K).getD di 0 ≠ (specVerify fd fm st K).getD di 0
  · exact Or.inl ⟨hdiK, hne, hagree⟩
  · have hdieq : di = K - 1 := by
      rcases hdis with hl | hr
      · exact absurd hl hne
      · exact hr
    refine Or.inr ⟨hdieq, fun j hj => ?_⟩
    by_cases hjd : j < di
    · exact hagree j hjd
    · have : j = di := by omega
      rw [this]
      omega

/-- C3: with K ≥ 1, every iteration entered with an empty accumulator
succeeds and grows `seq_len` by exactly `disagree_idx + 1`, which lies
between 1 and K; consequently the loop always terminates with a result, and
fuel `N - prompt_len` (that many iterations) suffices from the primed
initial state. -/
theorem speculative_progress_and_termination (fd fm : TokenModel) (K N : Nat)
    (hK : 1 ≤ K) :
    (∀ st : SpecState, st.accum_draft_tokens = [] →
      ∃ di st', specIter fd fm st K = some st' ∧
        st'.seq_len = st.seq_len + (di + 1) ∧ 1 ≤ di + 1 ∧ di + 1 ≤ K) ∧
    (∀ (fuel : Nat) (st : SpecState), N ≤ st.seq_len + fuel →
      ∃ r, specLoop fd fm fuel st K N = some r) ∧
    (∀ prompt : List Nat,
      ∃ r, specLoop fd fm (N - prompt.length) (initState fm prompt) K N = some r) := by
  refine ⟨?_, specLoop_isSome fd fm K N hK, ?_⟩
  · intro st hacc
    obtain ⟨di, _, hdiK, _, _, hiter⟩ := specIter_anatomy fd fm st K hK hacc
    exact ⟨di, _, hiter, rfl, by omega, by omega⟩
  · intro prompt
    exact specLoop_isSome fd fm K N hK (N - prompt.length) (initState fm prompt)
      (by show N ≤ prompt.length + (N - prompt.length); omega)

/-- C4: after trimming with `update_state`, every layer of both the draft
cache and the main cache has length `seq_len`, given that before trimming
every layer of either cache has length `seq_len_old + K` and that
`seq_len ≤ seq_len_old + K`. -/
theorem update_state_trims_to_seq_len (α : Type) (draftStates mainStates : List (List α))
    (seq_len_old K seq_len : Nat)
    (hd : ∀ layer ∈ draftStates, layer.length = seq_len_old + K)
    (hm : ∀ layer ∈ mainStates, layer.length = seq_len_old + K)
    (hs : seq_len ≤ seq_len_old + K) :
    (∀ layer ∈ update_state draftStates seq_len, layer.length = seq_len) ∧
    (∀ layer ∈ update_state mainStates seq_len, layer.length = seq_len) := by
  have key : ∀ states : List (List α), (∀ layer ∈ states, layer.length = seq_len_old + K) →
      ∀ layer ∈ update_state states seq_len, layer.length = seq_len := by
    intro states hst layer hmem
    rw [update_state, List.mem_map] at hmem
    obtain ⟨l0, hl0, heq⟩ := hmem
    have hl0len := hst l0 hl0
    by_cases hc : seq_len ≥ l0.length
    · rw [if_pos hc] at heq
      rw [← heq]
      omega
    · rw [if_neg hc] at heq
      rw [← heq, List.length_take]
      omega
  exact ⟨key draftStates hd, key mainStates hm⟩

/-- C5: `update_state` is idempotent (a second trim with the same target
length changes nothing), and per layer it truncates to the target length
exactly when the layer's current length exceeds the target, leaving the
layer untouched otherwise. -/
theorem update_state_idempotent_and_layerwise (α : Type) (s : Nat) :
    (∀ states : List (List α), update_state (update_state states s) s = update_state states s) ∧
    (∀ layer : List α, s < layer.length → update_state [layer] s = [layer.take s]) ∧
    (∀ layer : List α, layer.length ≤ s → update_state [layer] s = [layer]) := by
  refine ⟨?_, ?_, ?_⟩
  · intro states
    induction states with
    | nil => rfl
    | cons head tail ih =>
      simp only [update_state, List.map_cons] at ih ⊢
      rw [ih]
      congr 1
      by_cases hc : s ≥ head.length
      · rw [if_pos hc, if_pos hc]
      · rw [if_neg hc, if_pos (by rw [List.length_take]; omega)]
  · intro layer h
    simp only [update_state, List.map_cons, List.map_nil]
    rw [if_neg (by omega)]
  · intro layer h
    simp only [update_state, List.map_cons, List.map_nil]
    rw [if_pos (by omega)]

/-- C6, counterexample: the batched main-model call does not receive the K
proposed draft tokens as its input ids.  With draft model constantly 1,
main model constantly 2, prompt [0] and K = 2, the draft proposes [1, 1]
but the main model is fed [2, 1] (the last accepted token followed by all
draft proposals except the last). -/
theorem main_input_ids_differ_from_draft_tokens :
    (specMainCall (fun _ => 1) (initState (fun _ => 2) [0]) 2).input_ids ≠
      specDraftTokens (fun _ => 1) (initState (fun _ => 2) [0]) 2 := by
  decide

/-- C6, amended: the verifier's batched forward pass receives K tokens as
one contiguous input, namely the last accepted token `first_token` followed
by the first K - 1 draft proposals (the K-th draft token is never fed),
together with an attention mask covering `seq_len + K` positions and
position ids `[seq_len, ..., seq_len + K - 1]`. -/
theorem specMainCall_contents (fd : TokenModel) (st : SpecState) (K : Nat) (hK : 1 ≤ K)
    (hacc : st.accum_draft_tokens = []) :
    (specMainCall fd st K).input_ids =
      st.first_token :: (specDraftTokens fd st K).take (K - 1) ∧
    (specMainCall fd st K).input_ids.length = K ∧
    (specMainCall fd st K).attn_len = st.seq_len + K ∧
    (specMainCall fd st K).position_ids = List.range' st.seq_len K := by
  refine ⟨?_, specMainCall_input_length fd st K hK hacc, rfl, rfl⟩
  show st.first_token :: (specDraftTokens fd st K).dropLast = _
  rw [List.dropLast_eq_take, specDraftTokens_length_of_nil fd st K hacc]

/-- C7: the code performs no validation of K.  With K = 0 and a prompt
shorter than N, the call is not rejected up front: it enters the generation
loop and only fails inside the first iteration (the zip over the empty
draft-token list leaves `disagree_idx` unassigned, modelled as `none`);
with a prompt of length ≥ N the call even returns normally. -/
theorem speculative_K0_no_validation :
    speculative_sampling_with_pkv (fun _ => 0) (fun _ => 1) [0] 0 2 = none ∧
    speculative_sampling_with_pkv (fun _ => 0) (fun _ => 1) [0, 1, 2] 0 2 =
      some [0, 1, 2, 1] := by
  decide

/-- C8, counterexample: with the constant-0 model, prompt [5] and N = 3,
naive autoregressive decoding performs 3 forward-pass calls (the priming
call plus one per generated token), not N - prompt_len = 2. -/
theorem autoregressive_calls_ne_N_minus_prompt :
    ¬ (autoregressive_infer_calls (fun _ => 0) [5] 3 = 3 - [5].length) := by
  decide

/-- C8, amended: for prompt_len < N, naive autoregressive decoding performs
exactly N - prompt_len + 1 forward-pass calls (the priming pass on the
prompt plus one pass per loop iteration), and with K ≥ 1 speculative
decoding performs at most N - prompt_len + 1 calls to the verifier's
batched forward pass (its priming pass plus at most one batched pass per
iteration) — hence at most N calls whenever the prompt is nonempty, and
never more than the autoregressive count. -/
theorem infer_call_counts (fd fm : TokenModel) (prompt : List Nat) (K N : Nat)
    (hK : 1 ≤ K) (hpN : prompt.length < N) :
    autoregressive_infer_calls fm prompt N = N - prompt.length + 1 ∧
    ∃ c, speculative_main_infer_calls fd fm prompt K N = some c ∧
      c ≤ N - prompt.length + 1 ∧ (1 ≤ prompt.length → c ≤ N) := by
  refine ⟨autoregressive_calls_eq fm prompt N, ?_⟩
  obtain ⟨out, c, hloop, _, hc, _, _, _⟩ :=
    specLoop_sound fd fm prompt K N hK N (initState fm prompt) (initState_inv fm prompt)
      (by show N ≤ prompt.length + N; omega)
  have hc' : c ≤ N - prompt.length := hc
  refine ⟨c + 1, ?_, by omega, by omega⟩
  simp [speculative_main_infer_calls, hloop]

/-- C9: for prompt_len < N and K ≥ 1 the speculative routine succeeds and
returns a list of length between N + 1 and N + K (that is, final
`seq_len` between N and N + K - 1 plus one trailing `first_token`), while
the autoregressive routine always returns exactly N + 1 tokens; the
speculative result can therefore hold more tokens than the autoregressive
one. -/
theorem speculative_output_length_bounds (fd fm : TokenModel) (prompt : List Nat)
    (K N : Nat) (hK : 1 ≤ K) (hpN : prompt.length < N) :
    (∃ out, speculative_sampling_with_pkv fd fm prompt K N = some out ∧
      N + 1 ≤ out.length ∧ out.length ≤ N + K) ∧
    (autoregressive_sampling_with_pkv fm prompt N).length = N + 1 := by
  refine ⟨?_, autoregressive_length fm prompt N (by omega)⟩
  obtain ⟨out, c, hloop, _, _, _, hbounds, _⟩ :=
    specLoop_sound fd fm prompt K N hK N (initState fm prompt) (initState_inv fm prompt)
      (by show N ≤ prompt.length + N; omega)
  have hb := hbounds (show prompt.length < N from hpN)
  refine ⟨out, ?_, hb.1, hb.2⟩
  simp [speculative_sampling_with_pkv, hloop]

/-- C10: every successful run of the speculative routine returns exactly a
greedy chain of the main (verifier) model extending the prompt: each token
after the prompt is the verifier's argmax for the sequence before it, so no
raw draft-model token ever enters the returned sequence (in particular the
final `all_tokens.extend(accum_draft_tokens)` extends by the empty list). -/
theorem speculative_appended_tokens_are_verifier_argmax (fd fm : TokenModel)
    (prompt : List Nat) (K N : Nat) (out : List Nat)
    (h : speculative_sampling_with_pkv fd fm prompt K N = some out) :
    out = greedyChain fm prompt (out.length - prompt.length) := by
  by_cases hK : 1 ≤ K
  · obtain ⟨o, c, hloop, ⟨m, hchain, hlen⟩, _, _, _, _⟩ :=
      specLoop_sound fd fm prompt K N hK N (initState fm prompt) (initState_inv fm prompt)
        (by show N ≤ prompt.length + N; omega)
    rw [speculative_sampling_with_pkv, hloop] at h
    simp at h
    subst h
    rw [hchain]
    congr 1
    have hgl := greedyChain_length fm prompt m
    omega
  · have hK0 : K = 0 := by omega
    subst hK0
    by_cases hpN : prompt.length < N
    · exfalso
      have hIter : specIter fd fm (initState fm prompt) 0 = none :=
        specIter_k0 fd fm (initState fm prompt) rfl
      have hnone : specLoop fd fm N (initState fm prompt) 0 N = none := by
        cases N with
        | zero => omega
        | succ fuel =>
          simp [specLoop, show (initState fm prompt).seq_len < fuel + 1 from hpN, hIter]
      rw [speculative_sampling_with_pkv, hnone] at h
      simp at h
    · have hsome := specLoop_of_exit fd fm 0 N N (initState fm prompt)
        (show ¬ (initState fm prompt).seq_len < N from hpN)
      rw [speculative_sampling_with_pkv, hsome] at h
      simp [initState] at h
      rw [← h]
      have hlen2 : (prompt ++ [fm prompt]).length - prompt.length = 1 := by simp
      rw [hlen2]
      simp [greedyChain]

/-! ### Witnesses -/

/-- Witness for C1 (amended), at draft = main = constant 0, prompt [0],
K = 1, N = 2. -/
theorem speculative_extends_autoregressive_witness :
    ∃ out rest, speculative_sampling_with_pkv (fun _ => 0) (fun _ => 0) [0] 1 2 = some out ∧
      out = autoregressive_sampling_with_pkv (fun _ => 0) [0] 2 ++ rest ∧
      rest.length ≤ 1 - 1 :=
  speculative_extends_autoregressive (fun _ => 0) (fun _ => 0) [0] 1 2 (by decide) (by decide)

/-- Witness for C2, at the primed initial state of prompt [0] with both
models constantly 0 and K = 1. -/
theorem speculative_disagree_idx_and_accepted_tokens_witness :
    ∃ di st',
      disagreeIdx ((specDraftTokens (fun _ => 0) (initState (fun _ => 0) [0]) 1).zip
        (specVerify (fun _ => 0) (fun _ => 0) (initState (fun _ => 0) [0]) 1)) = some di ∧
      specIter (fun _ => 0) (fun _ => 0) (initState (fun _ => 0) [0]) 1 = some st' ∧
      st'.all_tokens = (initState (fun _ => 0) [0]).all_tokens ++
        (specVerify (fun _ => 0) (fun _ => 0) (initState (fun _ => 0) [0]) 1).take (di + 1) ∧
      st'.seq_len = (initState (fun _ => 0) [0]).seq_len + (di + 1) ∧
      ((di < 1 ∧
          (specDraftTokens (fun _ => 0) (initState (fun _ => 0) [0]) 1).getD di 0 ≠
            (specVerify (fun _ => 0) (fun _ => 0) (initState (fun _ => 0) [0]) 1).getD di 0 ∧
          (∀ j, j < di →
            (specDraftTokens (fun _ => 0) (initState (fun _ => 0) [0]) 1).getD j 0 =
              (specVerify (fun _ => 0) (fun _ => 0) (initState (fun _ => 0) [0]) 1).getD j 0)) ∨
        (di = 1 - 1 ∧
          ∀ j, j < 1 →
            (specDraftTokens (fun _ => 0) (initState (fun _ => 0) [0]) 1).getD j 0 =
              (specVerify (fun _ => 0) (fun _ => 0) (initState (fun _ => 0) [0]) 1).getD j 0)) :=
  speculative_disagree_idx_and_accepted_tokens (fun _ => 0) (fun _ => 0)
    (initState (fun _ => 0) [0]) 1 (by decide) rfl

/-- Witness for C3, at both models constantly 0, K = 1, N = 2, applied to
the primed initial state of prompt [0]. -/
theorem speculative_progress_and_termination_witness :
    ∃ di st', specIter (fun _ => 0) (fun _ => 0) (initState (fun _ => 0) [0]) 1 = some st' ∧
      st'.seq_len = (initState (fun _ => 0) [0]).seq_len + (di + 1) ∧
      1 ≤ di + 1 ∧ di + 1 ≤ 1 :=
  (speculative_progress_and_termination (fun _ => 0) (fun _ => 0) 1 2 (by decide)).1
    (initState (fun _ => 0) [0]) rfl

/-- Witness for C4: a layer of the trimmed cache really has the target
length. -/
theorem update_state_trims_to_seq_len_witness : ([1, 2] : List Nat).length = 2 :=
  (update_state_trims_to_seq_len Nat [[1, 2, 3]] [[4, 5, 6]] 1 2 2 (by decide) (by decide)
    (by decide)).1 [1, 2] (by decide)

/-- Witness for C5, at concrete caches and target length 2. -/
theorem update_state_idempotent_and_layerwise_witness :
    update_state (update_state [[1, 2, 3], [4]] 2) 2 = update_state [[1, 2, 3], [4]] 2 ∧
    update_state [[1, 2, 3]] 2 = [[1, 2]] ∧
    update_state [[4]] 2 = [[4]] :=
  ⟨(update_state_idempotent_and_layerwise Nat 2).1 [[1, 2, 3], [4]],
   (update_state_idempotent_and_layerwise Nat 2).2.1 [1, 2, 3] (by decide),
   (update_state_idempotent_and_layerwise Nat 2).2.2 [4] (by decide)⟩

/-- Witness for C6 (amended), at draft constantly 1, main constantly 2,
prompt [0], K = 2. -/
theorem specMainCall_contents_witness :
    (specMainCall (fun _ => 1) (initState (fun _ => 2) [0]) 2).input_ids =
      (initState (fun _ => 2) [0]).first_token ::
        (specDraftTokens (fun _ => 1) (initState (fun _ => 2) [0]) 2).take (2 - 1) ∧
    (specMainCall (fun _ => 1) (initState (fun _ => 2) [0]) 2).input_ids.length = 2 ∧
    (specMainCall (fun _ => 1) (initState (fun _ => 2) [0]) 2).attn_len =
      (initState (fun _ => 2) [0]).seq_len + 2 ∧
    (specMainCall (fun _ => 1) (initState (fun _ => 2) [0]) 2).position_ids =
      List.range' (initState (fun _ => 2) [0]).seq_len 2 :=
  specMainCall_contents (fun _ => 1) (initState (fun _ => 2) [0]) 2 (by decide) rfl

/-- Witness for C8 (amended), at both models constantly 0, prompt [5],
K = 1, N = 3. -/
theorem infer_call_counts_witness :
    autoregressive_infer_calls (fun _ => 0) [5] 3 = 3 - [5].length + 1 ∧
    ∃ c, speculative_main_infer_calls (fun _ => 0) (fun _ => 0) [5] 1 3 = some c ∧
      c ≤ 3 - [5].length + 1 ∧ (1 ≤ [5].length → c ≤ 3) :=
  infer_call_counts (fun _ => 0) (fun _ => 0) [5] 1 3 (by decide) (by decide)

/-- Witness for C9, at both models constantly 0, prompt [0], K = 2, N = 2. -/
theorem speculative_output_length_bounds_witness :
    (∃ out, speculative_sampling_with_pkv (fun _ => 0) (fun _ => 0) [0] 2 2 = some out ∧
      2 + 1 ≤ out.length ∧ out.length ≤ 2 + 2) ∧
    (autoregressive_sampling_with_pkv (fun _ => 0) [0] 2).length = 2 + 1 :=
  speculative_output_length_bounds (fun _ => 0) (fun _ => 0) [0] 2 2 (by decide) (by decide)

/-- Witness for C10: the concrete successful run [0] → [0, 0, 0] is the
greedy chain of the main model. -/
theorem speculative_appended_tokens_are_verifier_argmax_witness :
    ([0, 0, 0] : List Nat) =
      greedyChain (fun _ => 0) [0] (([0, 0, 0] : List Nat).length - ([0] : List Nat).length) :=
  speculative_appended_tokens_are_verifier_argmax (fun _ => 0) (fun _ => 0) [0] 1 2 [0, 0, 0]
    (by decide)
